import Mathlib

/-!
Verification of the recurring-occurrence engine of the `metodo-3c-ilf` clinic
portal.  The engine's source lives in the React pages and dialogs of the
repository; the relevant logic is:

* `generateDates` (AdminMedications / AdminFinancial / AdminApplications):
  expansion of a recurrence plan `(startDate, endDate, freq)` into the list of
  occurrence dates, stepping by a `switch` over the frequency tag using the
  date-fns operations `addDays`, `addWeeks`, `addMonths`;
* the subsequent-sibling computation of `EditApplicationDialog` /
  `EditMedicationDialog` (filter + sort) and the cascading date shift applied
  on submit (`addDays(parseISO(d), dateDiff)`);
* `fetchPayments` of the admin financial page (derivation and write-back of
  the `overdue` status) and of the patient `Financial` page (plain read).

Dates are modelled as proof-carrying Gregorian calendar dates (a JavaScript
`Date` normalised to local midnight is always a valid calendar date, and all
the date-fns operations used by the code are calendar-level operations).
-/

namespace MetodoIlf

/-- Gregorian leap-year rule (what JavaScript `Date` / date-fns implement). -/
def isLeapYear (y : Int) : Bool :=
  (y % 4 == 0 && y % 100 != 0) || y % 400 == 0

/-- Number of days of month `month` (1..12) of year `year`. -/
def daysInMonth (year : Int) (month : Nat) : Nat :=
  if month = 2 then (if isLeapYear year then 29 else 28)
  else if month = 4 ∨ month = 6 ∨ month = 9 ∨ month = 11 then 30
  else 31

theorem daysInMonth_ge (y : Int) (m : Nat) : 28 ≤ daysInMonth y m := by
  unfold daysInMonth; split_ifs <;> omega

theorem daysInMonth_le (y : Int) (m : Nat) : daysInMonth y m ≤ 31 := by
  unfold daysInMonth; split_ifs <;> omega

theorem daysInMonth_twelve (y : Int) : daysInMonth y 12 = 31 := by
  norm_num [daysInMonth]

theorem daysInMonth_one (y : Int) : daysInMonth y 1 = 31 := by
  norm_num [daysInMonth]

/-- A calendar date, as a JavaScript `Date` normalised to midnight: year,
month (1..12) and day of month (1..`daysInMonth`).  JavaScript `Date`s are
always normalised, so validity is carried in the structure. -/
structure Date where
  year : Int
  month : Nat
  day : Nat
  month_ge : 1 ≤ month
  month_le : month ≤ 12
  day_ge : 1 ≤ day
  day_le : day ≤ daysInMonth year month

theorem Date.ext' {a b : Date} (hy : a.year = b.year) (hm : a.month = b.month)
    (hd : a.day = b.day) : a = b := by
  cases a; cases b
  simp only at hy hm hd
  subst hy; subst hm; subst hd
  rfl

instance : DecidableEq Date := fun a b =>
  if h : a.year = b.year ∧ a.month = b.month ∧ a.day = b.day then
    .isTrue (Date.ext' h.1 h.2.1 h.2.2)
  else
    .isFalse (fun he => h (by subst he; exact ⟨rfl, rfl, rfl⟩))

/-- Auxiliary strictly monotone ranking of dates (a proof device: lexicographic
order on (year, month, day) collapsed into a single integer; NOT a day count). -/
def toN (d : Date) : Int := (d.year * 12 + d.month) * 31 + d.day

theorem toN_inj {a b : Date} (h : toN a = toN b) : a = b := by
  have ha1 := a.month_ge; have ha2 := a.month_le
  have ha3 := a.day_ge; have ha4 := a.day_le
  have hb1 := b.month_ge; have hb2 := b.month_le
  have hb3 := b.day_ge; have hb4 := b.day_le
  have ha5 := daysInMonth_le a.year a.month
  have hb5 := daysInMonth_le b.year b.month
  unfold toN at h
  exact Date.ext' (by omega) (by omega) (by omega)

/-- date-fns `isBefore` on midnight dates: comparison of the timestamps, i.e.
lexicographic comparison of (year, month, day). -/
def isBefore (a b : Date) : Bool :=
  decide (a.year < b.year ∨ (a.year = b.year ∧
    (a.month < b.month ∨ (a.month = b.month ∧ a.day < b.day))))

/-- date-fns `isEqual` on midnight dates. -/
def isEqual (a b : Date) : Bool := decide (a = b)

/-- date-fns `isAfter` on midnight dates. -/
def isAfter (a b : Date) : Bool := isBefore b a

theorem isBefore_iff {a b : Date} : isBefore a b = true ↔ toN a < toN b := by
  have ha4 := a.day_le; have hb4 := b.day_le
  have ha5 := daysInMonth_le a.year a.month
  have hb5 := daysInMonth_le b.year b.month
  have ha3 := a.day_ge; have hb3 := b.day_ge
  have ha1 := a.month_ge; have ha2 := a.month_le
  have hb1 := b.month_ge; have hb2 := b.month_le
  simp only [isBefore, decide_eq_true_eq, toN]
  omega

theorem isEqual_iff {a b : Date} : isEqual a b = true ↔ a = b := by
  simp [isEqual]

theorem isAfter_iff {a b : Date} : isAfter a b = true ↔ toN b < toN a := by
  simpa [isAfter] using isBefore_iff

/-- The calendar day after `d`. -/
def nextDay (d : Date) : Date :=
  if h : d.day < daysInMonth d.year d.month then
    ⟨d.year, d.month, d.day + 1, d.month_ge, d.month_le, by omega, h⟩
  else if h2 : d.month < 12 then
    ⟨d.year, d.month + 1, 1, by omega, by omega, le_refl 1,
      daysInMonth_ge d.year (d.month + 1) |>.trans' (by omega)⟩
  else
    ⟨d.year + 1, 1, 1, le_refl 1, by omega, le_refl 1,
      by rw [daysInMonth_one]; omega⟩

/-- The calendar day before `d`. -/
def prevDay (d : Date) : Date :=
  if h : 1 < d.day then
    ⟨d.year, d.month, d.day - 1, d.month_ge, d.month_le, by omega,
      by have := d.day_le; omega⟩
  else if h2 : 1 < d.month then
    ⟨d.year, d.month - 1, daysInMonth d.year (d.month - 1), by omega,
      by have := d.month_le; omega, by have := daysInMonth_ge d.year (d.month - 1); omega,
      le_refl _⟩
  else
    ⟨d.year - 1, 12, 31, by omega, le_refl _, by omega,
      by rw [daysInMonth_twelve]⟩

theorem toN_nextDay_gt (d : Date) : toN d < toN (nextDay d) := by
  have h4 := d.day_le
  have h5 := daysInMonth_le d.year d.month
  have h6 := d.month_le
  unfold nextDay
  split_ifs <;> simp only [toN] <;> omega

theorem nextDay_eq_a (d : Date) (h : d.day < daysInMonth d.year d.month) :
    (nextDay d).year = d.year ∧ (nextDay d).month = d.month ∧
      (nextDay d).day = d.day + 1 := by
  unfold nextDay; rw [dif_pos h]; exact ⟨rfl, rfl, rfl⟩

theorem nextDay_eq_b (d : Date) (h : ¬ d.day < daysInMonth d.year d.month)
    (h2 : d.month < 12) :
    (nextDay d).year = d.year ∧ (nextDay d).month = d.month + 1 ∧
      (nextDay d).day = 1 := by
  unfold nextDay; rw [dif_neg h, dif_pos h2]; exact ⟨rfl, rfl, rfl⟩

theorem nextDay_eq_c (d : Date) (h : ¬ d.day < daysInMonth d.year d.month)
    (h2 : ¬ d.month < 12) :
    (nextDay d).year = d.year + 1 ∧ (nextDay d).month = 1 ∧
      (nextDay d).day = 1 := by
  unfold nextDay; rw [dif_neg h, dif_neg h2]; exact ⟨rfl, rfl, rfl⟩

theorem prevDay_eq_a (d : Date) (h : 1 < d.day) :
    (prevDay d).year = d.year ∧ (prevDay d).month = d.month ∧
      (prevDay d).day = d.day - 1 := by
  unfold prevDay; rw [dif_pos h]; exact ⟨rfl, rfl, rfl⟩

theorem prevDay_eq_b (d : Date) (h : ¬ 1 < d.day) (h2 : 1 < d.month) :
    (prevDay d).year = d.year ∧ (prevDay d).month = d.month - 1 ∧
      (prevDay d).day = daysInMonth d.year (d.month - 1) := by
  unfold prevDay; rw [dif_neg h, dif_pos h2]; exact ⟨rfl, rfl, rfl⟩

theorem prevDay_eq_c (d : Date) (h : ¬ 1 < d.day) (h2 : ¬ 1 < d.month) :
    (prevDay d).year = d.year - 1 ∧ (prevDay d).month = 12 ∧
      (prevDay d).day = 31 := by
  unfold prevDay; rw [dif_neg h, dif_neg h2]; exact ⟨rfl, rfl, rfl⟩

theorem prevDay_nextDay (d : Date) : prevDay (nextDay d) = d := by
  have hm1 := d.month_ge
  have h3 := d.day_ge
  have h4 := d.day_le
  by_cases h : d.day < daysInMonth d.year d.month
  · obtain ⟨e1, e2, e3⟩ := nextDay_eq_a d h
    obtain ⟨f1, f2, f3⟩ := prevDay_eq_a (nextDay d) (by omega)
    exact Date.ext' (by omega) (by omega) (by omega)
  · by_cases h2 : d.month < 12
    · obtain ⟨e1, e2, e3⟩ := nextDay_eq_b d h h2
      obtain ⟨f1, f2, f3⟩ := prevDay_eq_b (nextDay d) (by omega) (by omega)
      refine Date.ext' (by omega) (by omega) ?_
      have hm : (nextDay d).month - 1 = d.month := by omega
      rw [f3, hm, e1]
      omega
    · obtain ⟨e1, e2, e3⟩ := nextDay_eq_c d h h2
      have hm : d.month = 12 := by have := d.month_le; omega
      have hd : d.day = 31 := by
        rw [hm, daysInMonth_twelve] at h h4; omega
      obtain ⟨f1, f2, f3⟩ := prevDay_eq_c (nextDay d) (by omega) (by omega)
      exact Date.ext' (by omega) (by omega) (by omega)

theorem nextDay_prevDay (d : Date) : nextDay (prevDay d) = d := by
  have h1 := d.month_ge
  have h2 := d.month_le
  have h3 := d.day_ge
  have h4 := d.day_le
  by_cases h : 1 < d.day
  · obtain ⟨e1, e2, e3⟩ := prevDay_eq_a d h
    have hlt : (prevDay d).day < daysInMonth (prevDay d).year (prevDay d).month := by
      rw [e1, e2, e3]; omega
    obtain ⟨f1, f2, f3⟩ := nextDay_eq_a (prevDay d) hlt
    exact Date.ext' (by omega) (by omega) (by omega)
  · by_cases hm : 1 < d.month
    · obtain ⟨e1, e2, e3⟩ := prevDay_eq_b d h hm
      have hnlt : ¬ (prevDay d).day < daysInMonth (prevDay d).year (prevDay d).month := by
        rw [e1, e2, e3]; omega
      obtain ⟨f1, f2, f3⟩ := nextDay_eq_b (prevDay d) hnlt (by omega)
      exact Date.ext' (by omega) (by omega) (by omega)
    · have hm1 : d.month = 1 := by omega
      have hd1 : d.day = 1 := by omega
      obtain ⟨e1, e2, e3⟩ := prevDay_eq_c d h (by omega)
      have hnlt : ¬ (prevDay d).day < daysInMonth (prevDay d).year (prevDay d).month := by
        rw [e1, e2, e3, daysInMonth_twelve]; omega
      obtain ⟨f1, f2, f3⟩ := nextDay_eq_c (prevDay d) hnlt (by omega)
      exact Date.ext' (by omega) (by omega) (by omega)

/-- date-fns `addDays` for a nonnegative amount: iterate the calendar
successor. -/
def addDaysNat (d : Date) : Nat → Date
  | 0 => d
  | n + 1 => addDaysNat (nextDay d) n

/-- Calendar-day subtraction (what `addDays` with a negative amount does). -/
def subDaysNat (d : Date) : Nat → Date
  | 0 => d
  | n + 1 => subDaysNat (prevDay d) n

/-- date-fns `addDays`: move `amount` calendar days (either direction). -/
def addDays (d : Date) (amount : Int) : Date :=
  if 0 ≤ amount then addDaysNat d amount.toNat else subDaysNat d (-amount).toNat

/-- date-fns `addWeeks`. -/
def addWeeks (d : Date) (amount : Int) : Date := addDays d (7 * amount)

theorem addDaysNat_succ (d : Date) (n : Nat) :
    addDaysNat d (n + 1) = nextDay (addDaysNat d n) := by
  induction n generalizing d with
  | zero => rfl
  | succ n ih => exact ih (nextDay d)

theorem subDaysNat_succ (d : Date) (n : Nat) :
    subDaysNat d (n + 1) = prevDay (subDaysNat d n) := by
  induction n generalizing d with
  | zero => rfl
  | succ n ih => exact ih (prevDay d)

theorem subDaysNat_addDaysNat (d : Date) (n : Nat) :
    subDaysNat (addDaysNat d n) n = d := by
  induction n generalizing d with
  | zero => rfl
  | succ n ih =>
    rw [addDaysNat_succ, subDaysNat]
    rw [prevDay_nextDay]
    exact ih d

theorem addDaysNat_subDaysNat (d : Date) (n : Nat) :
    addDaysNat (subDaysNat d n) n = d := by
  induction n generalizing d with
  | zero => rfl
  | succ n ih =>
    rw [subDaysNat_succ, addDaysNat]
    rw [nextDay_prevDay]
    exact ih d

theorem toN_addDaysNat_ge (d : Date) (n : Nat) :
    toN d + n ≤ toN (addDaysNat d n) := by
  induction n generalizing d with
  | zero => simp [addDaysNat]
  | succ n ih =>
    have h1 := toN_nextDay_gt d
    have h2 := ih (nextDay d)
    rw [addDaysNat]
    push_cast
    push_cast at h2
    omega

/-- `nextDay d` is the least date strictly above `d`: no valid calendar date
lies strictly between a date and its successor. -/
theorem toN_nextDay_le {d c : Date} (h : toN d < toN c) :
    toN (nextDay d) ≤ toN c := by
  have hd4 := d.day_le
  have hd3 := d.day_ge
  have hdm1 := d.month_ge
  have hdm2 := d.month_le
  have hc4 := c.day_le
  have hc3 := c.day_ge
  have hcm1 := c.month_ge
  have hcm2 := c.month_le
  have hdml := daysInMonth_le d.year d.month
  have hcml := daysInMonth_le c.year c.month
  by_cases hb : d.day < daysInMonth d.year d.month
  · obtain ⟨e1, e2, e3⟩ := nextDay_eq_a d hb
    unfold toN at h ⊢
    rw [e1, e2, e3]
    omega
  · have hAB : (12 * d.year + (d.month : Int) < 12 * c.year + c.month) ∨
        (d.year = c.year ∧ d.month = c.month) := by
      unfold toN at h
      omega
    rcases hAB with hAB | ⟨hy, hm⟩
    · by_cases h12 : d.month < 12
      · obtain ⟨e1, e2, e3⟩ := nextDay_eq_b d hb h12
        unfold toN at h ⊢
        rw [e1, e2, e3]
        omega
      · obtain ⟨e1, e2, e3⟩ := nextDay_eq_c d hb h12
        unfold toN at h ⊢
        rw [e1, e2, e3]
        omega
    · exfalso
      unfold toN at h
      rw [hy, hm] at h hd4 hb
      omega

theorem reach_aux (c : Date) :
    ∀ k, ∀ d : Date, toN d ≤ toN c → (toN c - toN d).toNat ≤ k →
      ∃ n, addDaysNat d n = c := by
  intro k
  induction k with
  | zero =>
    intro d h hk
    have h2 : toN c ≤ toN d := by omega
    exact ⟨0, toN_inj (le_antisymm h h2)⟩
  | succ k ih =>
    intro d h hk
    by_cases he : toN d = toN c
    · exact ⟨0, toN_inj he⟩
    · have h1 : toN d < toN c := lt_of_le_of_ne h he
      have h2 := toN_nextDay_le h1
      have h3 := toN_nextDay_gt d
      obtain ⟨n, hn⟩ := ih (nextDay d) h2 (by omega)
      exact ⟨n + 1, hn⟩

/-- Any date above `d` is reached from `d` by adding finitely many days. -/
theorem exists_addDaysNat {d c : Date} (h : toN d ≤ toN c) :
    ∃ n, addDaysNat d n = c :=
  reach_aux c (toN c - toN d).toNat d h (le_refl _)

/-- Days of year `year` before the start of month `month` (1..12). -/
def daysBeforeMonth (year : Int) (month : Nat) : Nat :=
  let leap : Nat := if isLeapYear year then 1 else 0
  if month ≤ 1 then 0
  else if month = 2 then 31
  else if month = 3 then 59 + leap
  else if month = 4 then 90 + leap
  else if month = 5 then 120 + leap
  else if month = 6 then 151 + leap
  else if month = 7 then 181 + leap
  else if month = 8 then 212 + leap
  else if month = 9 then 243 + leap
  else if month = 10 then 273 + leap
  else if month = 11 then 304 + leap
  else 334 + leap

/-- Days strictly before January 1st of year `year`, counted from a fixed
origin (proleptic Gregorian). -/
def daysBeforeYear (y : Int) : Int :=
  365 * (y - 1) + (y - 1) / 4 - (y - 1) / 100 + (y - 1) / 400

/-- Absolute day number of a date: consecutive calendar days have consecutive
day numbers (the quantity date-fns `differenceInDays` measures). -/
def dayNumber (d : Date) : Int :=
  daysBeforeYear d.year + daysBeforeMonth d.year d.month + d.day

theorem daysBeforeMonth_succ (y : Int) (m : Nat) (h1 : 1 ≤ m) (h2 : m < 12) :
    daysBeforeMonth y (m + 1) = daysBeforeMonth y m + daysInMonth y m := by
  interval_cases m <;>
    cases hL : isLeapYear y <;>
      simp [daysBeforeMonth, daysInMonth, hL]

theorem daysBeforeMonth_one (y : Int) : daysBeforeMonth y 1 = 0 := by
  norm_num [daysBeforeMonth]

theorem daysBeforeMonth_twelve (y : Int) :
    daysBeforeMonth y 12 = 334 + (if isLeapYear y then 1 else 0) := by
  cases hL : isLeapYear y <;> simp [daysBeforeMonth, hL]

theorem isLeapYear_iff (y : Int) :
    isLeapYear y = true ↔ ((y % 4 = 0 ∧ ¬ y % 100 = 0) ∨ y % 400 = 0) := by
  simp [isLeapYear]

theorem daysBeforeYear_succ (y : Int) :
    daysBeforeYear (y + 1) =
      daysBeforeYear y + (if isLeapYear y then 366 else 365) := by
  have hiff := isLeapYear_iff y
  unfold daysBeforeYear
  by_cases hL : isLeapYear y = true
  · have hdiv : (y % 4 = 0 ∧ ¬ y % 100 = 0) ∨ y % 400 = 0 := hiff.mp hL
    rw [if_pos hL]
    simp only [add_sub_cancel_right]
    omega
  · have hdiv : ¬ ((y % 4 = 0 ∧ ¬ y % 100 = 0) ∨ y % 400 = 0) :=
      fun hc => hL (hiff.mpr hc)
    rw [if_neg hL]
    simp only [add_sub_cancel_right]
    omega

theorem dayNumber_nextDay (d : Date) : dayNumber (nextDay d) = dayNumber d + 1 := by
  have h1 := d.month_ge
  have h2 := d.month_le
  have h4 := d.day_le
  by_cases h : d.day < daysInMonth d.year d.month
  · obtain ⟨e1, e2, e3⟩ := nextDay_eq_a d h
    unfold dayNumber
    rw [e1, e2, e3]
    omega
  · by_cases h12 : d.month < 12
    · obtain ⟨e1, e2, e3⟩ := nextDay_eq_b d h h12
      unfold dayNumber
      rw [e1, e2, e3, daysBeforeMonth_succ d.year d.month h1 h12]
      omega
    · obtain ⟨e1, e2, e3⟩ := nextDay_eq_c d h h12
      have hm : d.month = 12 := by omega
      have hd : d.day = 31 := by rw [hm, daysInMonth_twelve] at h h4; omega
      unfold dayNumber
      rw [e1, e2, e3, daysBeforeMonth_one, daysBeforeYear_succ, hm, hd,
        daysBeforeMonth_twelve]
      by_cases hL : isLeapYear d.year = true
      · rw [if_pos hL, if_pos hL]; push_cast; omega
      · rw [if_neg hL, if_neg hL]; push_cast; omega

theorem dayNumber_prevDay (d : Date) : dayNumber (prevDay d) = dayNumber d - 1 := by
  have h := dayNumber_nextDay (prevDay d)
  rw [nextDay_prevDay] at h
  omega

theorem dayNumber_addDaysNat (d : Date) (n : Nat) :
    dayNumber (addDaysNat d n) = dayNumber d + n := by
  induction n generalizing d with
  | zero => simp [addDaysNat]
  | succ n ih =>
    rw [addDaysNat, ih (nextDay d), dayNumber_nextDay]
    push_cast
    omega

theorem dayNumber_subDaysNat (d : Date) (n : Nat) :
    dayNumber (subDaysNat d n) = dayNumber d - n := by
  induction n generalizing d with
  | zero => simp [subDaysNat]
  | succ n ih =>
    rw [subDaysNat, ih (prevDay d), dayNumber_prevDay]
    push_cast
    omega

theorem dayNumber_addDays (d : Date) (k : Int) :
    dayNumber (addDays d k) = dayNumber d + k := by
  unfold addDays
  split_ifs with h
  · rw [dayNumber_addDaysNat]; omega
  · rw [dayNumber_subDaysNat]; omega

/-- The day-number order and the lexicographic date order agree. -/
theorem toN_le_iff_dayNumber_le {a b : Date} :
    toN a ≤ toN b ↔ dayNumber a ≤ dayNumber b := by
  constructor
  · intro h
    obtain ⟨n, hn⟩ := exists_addDaysNat h
    have := dayNumber_addDaysNat a n
    rw [hn] at this
    omega
  · intro h
    by_contra hlt
    push_neg at hlt
    obtain ⟨n, hn⟩ := exists_addDaysNat (le_of_lt hlt)
    rcases n with _ | n
    · have : b = a := hn
      subst this
      exact absurd rfl (ne_of_lt hlt)
    · have := dayNumber_addDaysNat b (n + 1)
      rw [hn] at this
      push_cast at this
      omega

theorem toN_lt_iff_dayNumber_lt {a b : Date} :
    toN a < toN b ↔ dayNumber a < dayNumber b := by
  rw [← not_le, ← not_le]
  exact not_congr toN_le_iff_dayNumber_le

theorem isBefore_iff_dayNumber {a b : Date} :
    isBefore a b = true ↔ dayNumber a < dayNumber b := by
  rw [isBefore_iff, toN_lt_iff_dayNumber_lt]

theorem isAfter_iff_dayNumber {a b : Date} :
    isAfter a b = true ↔ dayNumber b < dayNumber a := by
  rw [isAfter_iff, toN_lt_iff_dayNumber_lt]

/-- Round trip of calendar-day shifting: `+k` then `-k` is the identity. -/
theorem addDays_cancel (d : Date) (k : Int) : addDays (addDays d k) (-k) = d := by
  rcases lt_trichotomy k 0 with h | h | h
  · have h1 : addDays d k = subDaysNat d (-k).toNat := if_neg (by omega)
    have h2 : addDays (subDaysNat d (-k).toNat) (-k) =
        addDaysNat (subDaysNat d (-k).toNat) (-k).toNat := if_pos (by omega)
    rw [h1, h2, addDaysNat_subDaysNat]
  · subst h
    norm_num [addDays, addDaysNat]
  · have h1 : addDays d k = addDaysNat d k.toNat := if_pos (by omega)
    have h2 : addDays (addDaysNat d k.toNat) (-k) =
        subDaysNat (addDaysNat d k.toNat) (- -k).toNat := if_neg (by omega)
    rw [h1, h2, neg_neg, subDaysNat_addDaysNat]

/-- date-fns `addMonths(date, 1)`: advance one calendar month keeping the
day-of-month, clamped to the last day of the target month when the original
day does not exist there. -/
def addMonths1 (d : Date) : Date :=
  if h : d.month < 12 then
    ⟨d.year, d.month + 1, min d.day (daysInMonth d.year (d.month + 1)),
      by omega, by omega,
      Nat.le_min.mpr ⟨d.day_ge, by have := daysInMonth_ge d.year (d.month + 1); omega⟩,
      min_le_right _ _⟩
  else
    ⟨d.year + 1, 1, min d.day (daysInMonth (d.year + 1) 1),
      le_refl 1, by omega,
      Nat.le_min.mpr ⟨d.day_ge, by have := daysInMonth_ge (d.year + 1) 1; omega⟩,
      min_le_right _ _⟩

theorem addMonths1_eq_a (d : Date) (h : d.month < 12) :
    (addMonths1 d).year = d.year ∧ (addMonths1 d).month = d.month + 1 ∧
      (addMonths1 d).day = min d.day (daysInMonth d.year (d.month + 1)) := by
  unfold addMonths1; rw [dif_pos h]; exact ⟨rfl, rfl, rfl⟩

theorem addMonths1_eq_b (d : Date) (h : ¬ d.month < 12) :
    (addMonths1 d).year = d.year + 1 ∧ (addMonths1 d).month = 1 ∧
      (addMonths1 d).day = min d.day (daysInMonth (d.year + 1) 1) := by
  unfold addMonths1; rw [dif_neg h]; exact ⟨rfl, rfl, rfl⟩

/-- A monthly step advances by at least 28 calendar days. -/
theorem dayNumber_addMonths1_ge (d : Date) :
    dayNumber d + 28 ≤ dayNumber (addMonths1 d) := by
  have h1 := d.month_ge
  have h2 := d.month_le
  have h4 := d.day_le
  by_cases h : d.month < 12
  · obtain ⟨e1, e2, e3⟩ := addMonths1_eq_a d h
    have g1 := daysInMonth_ge d.year d.month
    have g2 := daysInMonth_ge d.year (d.month + 1)
    unfold dayNumber
    rw [e1, e2, e3, daysBeforeMonth_succ d.year d.month h1 h]
    omega
  · obtain ⟨e1, e2, e3⟩ := addMonths1_eq_b d h
    have hm : d.month = 12 := by omega
    rw [hm, daysInMonth_twelve] at h4
    unfold dayNumber
    rw [e1, e2, e3, hm, daysBeforeMonth_one, daysBeforeMonth_twelve,
      daysBeforeYear_succ, daysInMonth_one]
    by_cases hL : isLeapYear d.year = true
    · rw [if_pos hL, if_pos hL]; push_cast; omega
    · rw [if_neg hL, if_neg hL]; push_cast; omega

/-- The recognized cadence tags of the frequency `switch`. -/
def recognizedFrequencies : List String :=
  ["1x semana", "2x semana", "1x quinzena", "1x 3 semanas", "1x mês"]

/-- One cadence step: the body of the `switch (freq)` inside `generateDates`
(the spec's `nextDate`).  An unrecognized tag takes the `default` branch,
which advances by one week. -/
def nextDate (currentDate : Date) (freq : String) : Date :=
  if freq = "1x semana" then addWeeks currentDate 1
  else if freq = "2x semana" then addDays currentDate 3
  else if freq = "1x quinzena" then addWeeks currentDate 2
  else if freq = "1x 3 semanas" then addWeeks currentDate 3
  else if freq = "1x mês" then addMonths1 currentDate
  else addWeeks currentDate 1

/-- Every branch of the cadence switch advances by at least 3 calendar days. -/
theorem dayNumber_nextDate_ge (d : Date) (freq : String) :
    dayNumber d + 3 ≤ dayNumber (nextDate d freq) := by
  have hm := dayNumber_addMonths1_ge d
  have h3 := dayNumber_addDays d 3
  have h7 := dayNumber_addDays d (7 * 1)
  have h14 := dayNumber_addDays d (7 * 2)
  have h21 := dayNumber_addDays d (7 * 3)
  unfold nextDate addWeeks
  split_ifs <;> omega

theorem toN_nextDate_gt (d : Date) (freq : String) :
    toN d < toN (nextDate d freq) := by
  rw [toN_lt_iff_dayNumber_lt]
  have := dayNumber_nextDate_ge d freq
  omega

/-- The `while` loop guard of `generateDates`. -/
theorem guard_iff (s e : Date) :
    (isBefore s e || isEqual s e) = true ↔ toN s ≤ toN e := by
  rw [Bool.or_eq_true, isBefore_iff, isEqual_iff]
  constructor
  · rintro (h | h)
    · exact le_of_lt h
    · subst h; exact le_refl _
  · intro h
    rcases lt_or_eq_of_le h with h | h
    · exact Or.inl h
    · exact Or.inr (toN_inj h)

/-- `generateDates` of the admin pages: starting at `startDate`, emit the
current date and step by the cadence switch while the current date is before
or equal to `endDate`. -/
def generateDates (startDate endDate : Date) (freq : String) : List Date :=
  if h : (isBefore startDate endDate || isEqual startDate endDate) = true then
    startDate :: generateDates (nextDate startDate freq) endDate freq
  else []
termination_by (toN endDate + 1 - toN startDate).toNat
decreasing_by
  have hle : toN startDate ≤ toN endDate := (guard_iff _ _).mp h
  have hgt := toN_nextDate_gt startDate freq
  simp_wf
  omega

theorem generateDates_cons (s e : Date) (f : String) (h : toN s ≤ toN e) :
    generateDates s e f = s :: generateDates (nextDate s f) e f := by
  rw [generateDates, dif_pos ((guard_iff s e).mpr h)]

theorem generateDates_nil (s e : Date) (f : String) (h : toN e < toN s) :
    generateDates s e f = [] := by
  rw [generateDates, dif_neg]
  rw [guard_iff]
  omega

theorem generateDates_mem_aux (e : Date) (f : String) :
    ∀ k, ∀ s : Date, (toN e + 1 - toN s).toNat ≤ k →
      ∀ x ∈ generateDates s e f, toN s ≤ toN x ∧ toN x ≤ toN e := by
  intro k
  induction k with
  | zero =>
    intro s hk x hx
    rw [generateDates_nil s e f (by omega)] at hx
    cases hx
  | succ k ih =>
    intro s hk x hx
    by_cases hse : toN s ≤ toN e
    · rw [generateDates_cons s e f hse] at hx
      rcases List.mem_cons.mp hx with rfl | hx
      · exact ⟨le_refl _, hse⟩
      · have hgt := toN_nextDate_gt s f
        have h2 := ih (nextDate s f) (by omega) x hx
        exact ⟨by omega, h2.2⟩
    · rw [generateDates_nil s e f (by omega)] at hx
      cases hx

/-- Every generated date lies in the inclusive interval `[startDate, endDate]`. -/
theorem generateDates_mem_bounds (s e : Date) (f : String) :
    ∀ x ∈ generateDates s e f, toN s ≤ toN x ∧ toN x ≤ toN e :=
  generateDates_mem_aux e f _ s (le_refl _)

theorem generateDates_head (s e : Date) (f : String) (h : toN s ≤ toN e) :
    (generateDates s e f).head? = some s := by
  rw [generateDates_cons s e f h]
  rfl

theorem generateDates_mem_self (s e : Date) (f : String) (h : toN s ≤ toN e) :
    s ∈ generateDates s e f := by
  rw [generateDates_cons s e f h]
  exact List.mem_cons_self _ _

theorem generateDates_chain_aux (e : Date) (f : String) :
    ∀ k, ∀ s : Date, (toN e + 1 - toN s).toNat ≤ k →
      (generateDates s e f).Chain' (fun a b => b = nextDate a f) := by
  intro k
  induction k with
  | zero =>
    intro s hk
    rw [generateDates_nil s e f (by omega)]
    exact List.chain'_nil
  | succ k ih =>
    intro s hk
    by_cases hse : toN s ≤ toN e
    · rw [generateDates_cons s e f hse]
      refine List.chain'_cons'.mpr ⟨?_, ?_⟩
      · intro y hy
        by_cases hn : toN (nextDate s f) ≤ toN e
        · rw [generateDates_head _ e f hn] at hy
          exact (Option.mem_some_iff.mp hy).symm
        · rw [generateDates_nil _ e f (by omega)] at hy
          cases hy
      · have hgt := toN_nextDate_gt s f
        exact ih (nextDate s f) (by omega)
    · rw [generateDates_nil s e f (by omega)]
      exact List.chain'_nil

/-- Consecutive generated dates are related by exactly one cadence step. -/
theorem generateDates_chain (s e : Date) (f : String) :
    (generateDates s e f).Chain' (fun a b => b = nextDate a f) :=
  generateDates_chain_aux e f _ s (le_refl _)

/-- The generated dates are strictly increasing. -/
theorem generateDates_sorted (s e : Date) (f : String) :
    (generateDates s e f).Pairwise (fun a b => isBefore a b = true) := by
  haveI : IsTrans Date (fun a b => isBefore a b = true) :=
    ⟨fun a b c hab hbc =>
      isBefore_iff.mpr (lt_trans (isBefore_iff.mp hab) (isBefore_iff.mp hbc))⟩
  rw [← List.chain'_iff_pairwise]
  exact (generateDates_chain s e f).imp
    (fun a b hab => by subst hab; exact isBefore_iff.mpr (toN_nextDate_gt a f))

theorem generateDates_closed_aux (e : Date) (f : String) :
    ∀ k, ∀ s : Date, (toN e + 1 - toN s).toNat ≤ k →
      ∀ x ∈ generateDates s e f, toN (nextDate x f) ≤ toN e →
        nextDate x f ∈ generateDates s e f := by
  intro k
  induction k with
  | zero =>
    intro s hk x hx
    rw [generateDates_nil s e f (by omega)] at hx
    cases hx
  | succ k ih =>
    intro s hk x hx hxe
    by_cases hse : toN s ≤ toN e
    · rw [generateDates_cons s e f hse] at hx ⊢
      rcases List.mem_cons.mp hx with rfl | hx
      · exact List.mem_cons_of_mem _ (generateDates_mem_self _ e f hxe)
      · have hgt := toN_nextDate_gt s f
        exact List.mem_cons_of_mem _ (ih (nextDate s f) (by omega) x hx hxe)
    · rw [generateDates_nil s e f (by omega)] at hx
      cases hx

/-- The loop stops only when the advanced date would exceed `endDate`: if the
step from an emitted date is still within the range it is emitted as well (in
particular a step landing exactly on `endDate` is emitted). -/
theorem generateDates_closed (s e : Date) (f : String) :
    ∀ x ∈ generateDates s e f, toN (nextDate x f) ≤ toN e →
      nextDate x f ∈ generateDates s e f :=
  generateDates_closed_aux e f _ s (le_refl _)

theorem generateDates_length_aux (e : Date) (f : String) :
    ∀ k, ∀ s : Date, (toN e + 1 - toN s).toNat ≤ k →
      3 * (generateDates s e f).length ≤ (dayNumber e + 1 - dayNumber s).toNat + 2 := by
  intro k
  induction k with
  | zero =>
    intro s hk
    rw [generateDates_nil s e f (by omega)]
    simp
  | succ k ih =>
    intro s hk
    by_cases hse : toN s ≤ toN e
    · rw [generateDates_cons s e f hse]
      have hd : dayNumber s ≤ dayNumber e := toN_le_iff_dayNumber_le.mp hse
      have hgt := toN_nextDate_gt s f
      have hstep := dayNumber_nextDate_ge s f
      have h2 := ih (nextDate s f) (by omega)
      simp only [List.length_cons]
      omega
    · rw [generateDates_nil s e f (by omega)]
      simp

/-- `Application` record of `EditApplicationDialog` (one treatment occurrence). -/
structure Application where
  id : String
  user_id : String
  application_date : Date
  status : String
  notes : Option String

/-- `Medication` record of `EditMedicationDialog` (one medication occurrence). -/
structure Medication where
  id : String
  user_id : String
  medication_name : String
  dosage : String
  frequency : String
  start_date : Date
  end_date : Option Date
  is_active : Bool
  notes : Option String

/-- The subsequent-sibling computation of `EditApplicationDialog`: filter the
applications of the same patient, with a different id, strictly after the
edited occurrence's (pre-edit) date and still `scheduled`, then sort
ascending by date (JavaScript `Array.prototype.sort` is stable). -/
def subsequentApplications (application : Application)
    (allApplications : List Application) : List Application :=
  (allApplications.filter (fun app =>
      app.user_id == application.user_id &&
      app.id != application.id &&
      isAfter app.application_date application.application_date &&
      app.status == "scheduled")).mergeSort
    (fun a b => decide (toN a.application_date ≤ toN b.application_date))

/-- The subsequent-sibling computation of `EditMedicationDialog`: same patient
and same medication name, different id, strictly after the edited occurrence's
(pre-edit) start date and still active, sorted ascending by start date. -/
def subsequentMedications (medication : Medication)
    (allMedications : List Medication) : List Medication :=
  (allMedications.filter (fun med =>
      med.user_id == medication.user_id &&
      med.id != medication.id &&
      med.medication_name == medication.medication_name &&
      isAfter med.start_date medication.start_date &&
      med.is_active)).mergeSort
    (fun a b => decide (toN a.start_date ≤ toN b.start_date))

/-- The per-sibling update of the cascading shift in
`EditApplicationDialog.handleSubmit`: only `application_date` is written,
set to the original date plus the day delta. -/
def shiftApplication (dateDiff : Int) (app : Application) : Application :=
  { app with application_date := addDays app.application_date dateDiff }

/-- The cascading shift applied to all subsequent applications. -/
def shiftApplications (dateDiff : Int) (apps : List Application) :
    List Application :=
  apps.map (shiftApplication dateDiff)

/-- The per-sibling update of the cascading shift in
`EditMedicationDialog.handleSubmit`: only `start_date` is written. -/
def shiftMedication (dateDiff : Int) (med : Medication) : Medication :=
  { med with start_date := addDays med.start_date dateDiff }

/-- The cascading shift applied to all subsequent medications. -/
def shiftMedications (dateDiff : Int) (meds : List Medication) :
    List Medication :=
  meds.map (shiftMedication dateDiff)

/-- `Payment` record of the financial pages. -/
structure Payment where
  id : String
  user_id : String
  amount : Int
  due_date : Date
  status : String
  description : Option String
  paid_date : Option Date
  patient_name : Option String

/-- `Profile` row used by the admin financial page to label payments. -/
structure Profile where
  user_id : String
  full_name : String

/-- The `profilesMap` of the admin `fetchPayments`: a `Map` built by
iterating `Map.set`, so the last profile row for a `user_id` wins. -/
def profilesLookup (profilesData : List Profile) (uid : String) :
    Option String :=
  (profilesData.reverse.find? (fun p => p.user_id == uid)).map Profile.full_name

/-- `profilesMap.get(payment.user_id) || 'Paciente'` (JavaScript `||`:
`undefined` and the empty string are falsy). -/
def displayName (profilesData : List Profile) (uid : String) : String :=
  match profilesLookup profilesData uid with
  | none => "Paciente"
  | some n => if n = "" then "Paciente" else n

/-- The `paymentsToUpdate` filter of the admin `fetchPayments`: stored
`pending` payments whose due date is strictly before the injected "today"
(`isAfter(today, paymentDueDate)`); these rows get `status = 'overdue'`
written back to storage. -/
def paymentsToUpdate (today : Date) (paymentsData : List Payment) :
    List Payment :=
  paymentsData.filter (fun payment =>
    if payment.status == "pending" then isAfter today payment.due_date
    else false)

/-- The `finalStatus` computation of the admin `fetchPayments`: `pending`
with a past due date is presented as `overdue`; every other stored status is
presented unchanged. -/
def finalStatus (today : Date) (payment : Payment) : String :=
  if payment.status = "pending" then
    (if isAfter today payment.due_date then "overdue" else payment.status)
  else payment.status

/-- The `combinedData` of the admin `fetchPayments`: each fetched row with
the derived status and the patient display name. -/
def combinedData (today : Date) (paymentsData : List Payment)
    (profilesData : List Profile) : List Payment :=
  paymentsData.map (fun payment =>
    { payment with
        status := finalStatus today payment,
        patient_name := some (displayName profilesData payment.user_id) })

/-- `fetchPayments` of the patient-facing `Financial` page: the fetched rows
are stored into state as-is — no status derivation of any kind. -/
def patientPayments (rows : List Payment) : List Payment := rows

theorem subsequentApplications_mem (application : Application)
    (allApplications : List Application) (x : Application) :
    x ∈ subsequentApplications application allApplications ↔
      (x ∈ allApplications ∧ x.user_id = application.user_id ∧
        x.id ≠ application.id ∧
        dayNumber application.application_date < dayNumber x.application_date ∧
        x.status = "scheduled") := by
  unfold subsequentApplications
  rw [List.Perm.mem_iff (List.mergeSort_perm _ _), List.mem_filter]
  simp only [Bool.and_eq_true, beq_iff_eq, bne_iff_ne, ne_eq,
    isAfter_iff_dayNumber]
  tauto

theorem subsequentApplications_sorted (application : Application)
    (allApplications : List Application) :
    (subsequentApplications application allApplications).Pairwise
      (fun a b => dayNumber a.application_date ≤ dayNumber b.application_date) := by
  unfold subsequentApplications
  have h := @List.sorted_mergeSort Application
    (fun a b =>
      decide (toN a.application_date ≤ toN b.application_date))
    (fun a b c hab hbc => by
      simp only [decide_eq_true_eq] at hab hbc ⊢
      omega)
    (fun a b => by
      simp only [Bool.or_eq_true, decide_eq_true_eq]
      omega)
    (allApplications.filter (fun app =>
      app.user_id == application.user_id &&
      app.id != application.id &&
      isAfter app.application_date application.application_date &&
      app.status == "scheduled"))
  refine h.imp (fun hab => ?_)
  simp only [decide_eq_true_eq] at hab
  rw [← toN_le_iff_dayNumber_le]
  exact hab

theorem subsequentMedications_mem (medication : Medication)
    (allMedications : List Medication) (x : Medication) :
    x ∈ subsequentMedications medication allMedications ↔
      (x ∈ allMedications ∧ x.user_id = medication.user_id ∧
        x.id ≠ medication.id ∧
        x.medication_name = medication.medication_name ∧
        dayNumber medication.start_date < dayNumber x.start_date ∧
        x.is_active = true) := by
  unfold subsequentMedications
  rw [List.Perm.mem_iff (List.mergeSort_perm _ _), List.mem_filter]
  simp only [Bool.and_eq_true, beq_iff_eq, bne_iff_ne, ne_eq,
    isAfter_iff_dayNumber]
  tauto

theorem subsequentMedications_sorted (medication : Medication)
    (allMedications : List Medication) :
    (subsequentMedications medication allMedications).Pairwise
      (fun a b => dayNumber a.start_date ≤ dayNumber b.start_date) := by
  unfold subsequentMedications
  have h := @List.sorted_mergeSort Medication
    (fun a b =>
      decide (toN a.start_date ≤ toN b.start_date))
    (fun a b c hab hbc => by
      simp only [decide_eq_true_eq] at hab hbc ⊢
      omega)
    (fun a b => by
      simp only [Bool.or_eq_true, decide_eq_true_eq]
      omega)
    (allMedications.filter (fun med =>
      med.user_id == medication.user_id &&
      med.id != medication.id &&
      med.medication_name == medication.medication_name &&
      isAfter med.start_date medication.start_date &&
      med.is_active))
  refine h.imp (fun hab => ?_)
  simp only [decide_eq_true_eq] at hab
  rw [← toN_le_iff_dayNumber_le]
  exact hab

theorem shiftApplication_cancel (k : Int) (a : Application) :
    shiftApplication (-k) (shiftApplication k a) = a := by
  cases a
  simp [shiftApplication, addDays_cancel]

theorem shiftMedication_cancel (k : Int) (m : Medication) :
    shiftMedication (-k) (shiftMedication k m) = m := by
  cases m
  simp [shiftMedication, addDays_cancel]

/-- 2025-01-01. -/
def dJan01 : Date := ⟨2025, 1, 1, by decide, by decide, by decide, by decide⟩

/-- 2025-01-02. -/
def dJan02 : Date := ⟨2025, 1, 2, by decide, by decide, by decide, by decide⟩

/-- 2025-01-08. -/
def dJan08 : Date := ⟨2025, 1, 8, by decide, by decide, by decide, by decide⟩

/-- 2025-01-15. -/
def dJan15 : Date := ⟨2025, 1, 15, by decide, by decide, by decide, by decide⟩

/-- 2025-01-22. -/
def dJan22 : Date := ⟨2025, 1, 22, by decide, by decide, by decide, by decide⟩

/-- 2025-01-31. -/
def dJan31 : Date := ⟨2025, 1, 31, by decide, by decide, by decide, by decide⟩

/-- 2025-02-28 (2025 is not a leap year). -/
def dFeb28 : Date := ⟨2025, 2, 28, by decide, by decide, by decide, by decide⟩

/-- 2024-01-31. -/
def dJan31leap : Date := ⟨2024, 1, 31, by decide, by decide, by decide, by decide⟩

/-- 2024-02-29 (2024 is a leap year). -/
def dFeb29leap : Date := ⟨2024, 2, 29, by decide, by decide, by decide, by decide⟩

/-- 2025-03-31. -/
def dMar31 : Date := ⟨2025, 3, 31, by decide, by decide, by decide, by decide⟩

/-- 2025-04-30. -/
def dApr30 : Date := ⟨2025, 4, 30, by decide, by decide, by decide, by decide⟩

/-- A stored payment: `pending`, due 2025-01-01. -/
def samplePayment : Payment :=
  ⟨"pay1", "user1", 100, dJan01, "pending", none, none, none⟩

theorem addMonths1_year (d : Date) :
    (addMonths1 d).year = if d.month = 12 then d.year + 1 else d.year := by
  have h2 := d.month_le
  by_cases h : d.month < 12
  · rw [(addMonths1_eq_a d h).1, if_neg (by omega)]
  · rw [(addMonths1_eq_b d h).1, if_pos (by omega)]

theorem addMonths1_month (d : Date) :
    (addMonths1 d).month = if d.month = 12 then 1 else d.month + 1 := by
  have h2 := d.month_le
  by_cases h : d.month < 12
  · rw [(addMonths1_eq_a d h).2.1, if_neg (by omega)]
  · rw [(addMonths1_eq_b d h).2.1, if_pos (by omega)]

theorem addMonths1_day (d : Date) :
    (addMonths1 d).day =
      min d.day (daysInMonth (addMonths1 d).year (addMonths1 d).month) := by
  by_cases h : d.month < 12
  · obtain ⟨e1, e2, e3⟩ := addMonths1_eq_a d h
    rw [e3, e1, e2]
  · obtain ⟨e1, e2, e3⟩ := addMonths1_eq_b d h
    rw [e3, e1, e2]

/-- C1: for every recognized cadence and `startDate <= endDate`, each
expanded date lies in the inclusive interval `[startDate, endDate]`, the
expansion is strictly increasing, consecutive dates are related by exactly
one application of the cadence step, the expansion starts at `startDate`,
and whenever the step from an emitted date is still within the range (in
particular when it lands exactly on `endDate`) it is emitted as well —
i.e. the loop stops only once the advanced date would exceed `endDate`. -/
theorem generateDates_expansion_spec (s e : Date) (f : String)
    (hf : f ∈ recognizedFrequencies) (hse : toN s ≤ toN e) :
    (∀ x ∈ generateDates s e f, toN s ≤ toN x ∧ toN x ≤ toN e) ∧
    (generateDates s e f).Pairwise (fun a b => isBefore a b = true) ∧
    (generateDates s e f).Chain' (fun a b => b = nextDate a f) ∧
    (generateDates s e f).head? = some s ∧
    (∀ x ∈ generateDates s e f, toN (nextDate x f) ≤ toN e →
      nextDate x f ∈ generateDates s e f) :=
  ⟨generateDates_mem_bounds s e f, generateDates_sorted s e f,
    generateDates_chain s e f, generateDates_head s e f hse,
    generateDates_closed s e f⟩

/-- C1 witness: the weekly expansion from 2025-01-01 to 2025-01-22. -/
theorem generateDates_expansion_spec_witness :
    ("1x semana" ∈ recognizedFrequencies) ∧ (toN dJan01 ≤ toN dJan22) ∧
    ((∀ x ∈ generateDates dJan01 dJan22 "1x semana",
        toN dJan01 ≤ toN x ∧ toN x ≤ toN dJan22) ∧
     (generateDates dJan01 dJan22 "1x semana").Pairwise
        (fun a b => isBefore a b = true) ∧
     (generateDates dJan01 dJan22 "1x semana").Chain'
        (fun a b => b = nextDate a "1x semana") ∧
     (generateDates dJan01 dJan22 "1x semana").head? = some dJan01 ∧
     (∀ x ∈ generateDates dJan01 dJan22 "1x semana",
        toN (nextDate x "1x semana") ≤ toN dJan22 →
          nextDate x "1x semana" ∈ generateDates dJan01 dJan22 "1x semana")) :=
  ⟨by decide, by decide,
    generateDates_expansion_spec dJan01 dJan22 "1x semana" (by decide) (by decide)⟩

/-- C2: contrary to the claim, an unknown cadence tag does NOT fail — the
`default` branch of the switch silently advances by one week, so an
unrecognized tag such as "daily" behaves exactly like the weekly cadence
and the expansion succeeds with a full weekly schedule. -/
theorem nextDate_unknown_tag_defaults_to_weekly :
    (recognizedFrequencies.contains "daily") = false ∧
    (∀ d : Date, nextDate d "daily" = addWeeks d 1) ∧
    generateDates dJan01 dJan22 "daily" = [dJan01, dJan08, dJan15, dJan22] := by
  refine ⟨by decide, fun d => ?_, ?_⟩
  · unfold nextDate
    rw [if_neg (by decide), if_neg (by decide), if_neg (by decide),
      if_neg (by decide), if_neg (by decide)]
  · have e1 : nextDate dJan01 "daily" = dJan08 := by decide
    have e2 : nextDate dJan08 "daily" = dJan15 := by decide
    have e3 : nextDate dJan15 "daily" = dJan22 := by decide
    rw [generateDates_cons _ _ _ (by decide), e1,
      generateDates_cons _ _ _ (by decide), e2,
      generateDates_cons _ _ _ (by decide), e3,
      generateDates_cons _ _ _ (by decide),
      generateDates_nil _ _ _ (toN_nextDate_gt dJan22 "daily")]

/-- C5: the cadence step advances by exactly the table's rule — twice-weekly
+3 calendar days, weekly +7, biweekly +14, triweekly +21 — and monthly moves
to the next calendar month keeping the day-of-month clamped to the last
valid day of the target month, leap-year aware (2025-01-31 steps to
2025-02-28, 2024-01-31 to 2024-02-29, 2025-03-31 to 2025-04-30). -/
theorem nextDate_cadence_table (d : Date) :
    nextDate d "2x semana" = addDays d 3 ∧
    nextDate d "1x semana" = addWeeks d 1 ∧
    nextDate d "1x quinzena" = addWeeks d 2 ∧
    nextDate d "1x 3 semanas" = addWeeks d 3 ∧
    nextDate d "1x mês" = addMonths1 d ∧
    dayNumber (addDays d 3) = dayNumber d + 3 ∧
    dayNumber (addWeeks d 1) = dayNumber d + 7 ∧
    dayNumber (addWeeks d 2) = dayNumber d + 14 ∧
    dayNumber (addWeeks d 3) = dayNumber d + 21 ∧
    (addMonths1 d).year = (if d.month = 12 then d.year + 1 else d.year) ∧
    (addMonths1 d).month = (if d.month = 12 then 1 else d.month + 1) ∧
    (addMonths1 d).day =
      min d.day (daysInMonth (addMonths1 d).year (addMonths1 d).month) ∧
    addMonths1 dJan31 = dFeb28 ∧
    addMonths1 dJan31leap = dFeb29leap ∧
    addMonths1 dMar31 = dApr30 := by
  refine ⟨?_, ?_, ?_, ?_, ?_, dayNumber_addDays d 3, ?_, ?_, ?_,
    addMonths1_year d, addMonths1_month d, addMonths1_day d,
    by decide, by decide, by decide⟩
  · unfold nextDate
    rw [if_neg (by decide), if_pos rfl]
  · unfold nextDate
    rw [if_pos rfl]
  · unfold nextDate
    rw [if_neg (by decide), if_neg (by decide), if_pos rfl]
  · unfold nextDate
    rw [if_neg (by decide), if_neg (by decide), if_neg (by decide), if_pos rfl]
  · unfold nextDate
    rw [if_neg (by decide), if_neg (by decide), if_neg (by decide),
      if_neg (by decide), if_pos rfl]
  · rw [addWeeks, dayNumber_addDays]; norm_num
  · rw [addWeeks, dayNumber_addDays]; norm_num
  · rw [addWeeks, dayNumber_addDays]; norm_num

/-- C8: when `startDate` is strictly after `endDate` the expansion is the
empty sequence (and, being a total function, it raises no error). -/
theorem generateDates_empty_when_inverted (s e : Date) (f : String)
    (h : isAfter s e = true) : generateDates s e f = [] :=
  generateDates_nil s e f (isAfter_iff.mp h)

/-- C8 witness: 2025-01-02 after 2025-01-01 expands to nothing. -/
theorem generateDates_empty_when_inverted_witness :
    isAfter dJan02 dJan01 = true ∧ generateDates dJan02 dJan01 "1x semana" = [] :=
  ⟨by decide, generateDates_empty_when_inverted dJan02 dJan01 "1x semana" (by decide)⟩

/-- C9: the expansion terminates on every input — every branch of the
cadence switch, the default branch included, advances the current date by at
least 3 calendar days, and consequently the number of emitted dates is
bounded by a third of the day span of the range. -/
theorem generateDates_terminates (s e : Date) (f : String) :
    dayNumber s + 3 ≤ dayNumber (nextDate s f) ∧
    3 * (generateDates s e f).length ≤ (dayNumber e + 1 - dayNumber s).toNat + 2 :=
  ⟨dayNumber_nextDate_ge s f, generateDates_length_aux e f _ s (le_refl _)⟩

/-- C4: the Series Locator of the edit dialogs returns exactly the
occurrences with the same series key (same patient for applications; same
patient and medication name for medications), a different identity, a date
strictly later than the edited occurrence's original pre-edit date, and the
domain's initial pending status (`scheduled` / active) — hence never a
completed, cancelled or missed occurrence — and the result is sorted
ascending by occurrence date. -/
theorem seriesLocator_spec (application : Application)
    (allApplications : List Application) (medication : Medication)
    (allMedications : List Medication) :
    ((∀ x, x ∈ subsequentApplications application allApplications ↔
        (x ∈ allApplications ∧ x.user_id = application.user_id ∧
          x.id ≠ application.id ∧
          dayNumber application.application_date < dayNumber x.application_date ∧
          x.status = "scheduled")) ∧
      (subsequentApplications application allApplications).Pairwise
        (fun a b => dayNumber a.application_date ≤ dayNumber b.application_date)) ∧
    ((∀ x, x ∈ subsequentMedications medication allMedications ↔
        (x ∈ allMedications ∧ x.user_id = medication.user_id ∧
          x.id ≠ medication.id ∧
          x.medication_name = medication.medication_name ∧
          dayNumber medication.start_date < dayNumber x.start_date ∧
          x.is_active = true)) ∧
      (subsequentMedications medication allMedications).Pairwise
        (fun a b => dayNumber a.start_date ≤ dayNumber b.start_date)) :=
  ⟨⟨fun x => subsequentApplications_mem application allApplications x,
      subsequentApplications_sorted application allApplications⟩,
    ⟨fun x => subsequentMedications_mem medication allMedications x,
      subsequentMedications_sorted medication allMedications⟩⟩

/-- C6: the cascading shift is a round trip — shifting every sibling by `k`
calendar days and then by `-k` restores every date — and each shifted
sibling's new date is exactly the original date plus `k` calendar days. -/
theorem cascadingShift_roundtrip (k : Int) (apps : List Application)
    (meds : List Medication) :
    shiftApplications (-k) (shiftApplications k apps) = apps ∧
    shiftMedications (-k) (shiftMedications k meds) = meds ∧
    (∀ a : Application, dayNumber (shiftApplication k a).application_date =
      dayNumber a.application_date + k) ∧
    (∀ m : Medication, dayNumber (shiftMedication k m).start_date =
      dayNumber m.start_date + k) := by
  refine ⟨?_, ?_, fun a => dayNumber_addDays a.application_date k,
    fun m => dayNumber_addDays m.start_date k⟩
  · unfold shiftApplications
    rw [List.map_map,
      show shiftApplication (-k) ∘ shiftApplication k = id from
        funext fun a => shiftApplication_cancel k a,
      List.map_id]
  · unfold shiftMedications
    rw [List.map_map,
      show shiftMedication (-k) ∘ shiftMedication k = id from
        funext fun m => shiftMedication_cancel k m,
      List.map_id]

/-- C7: the cascading shift's per-sibling update changes only the occurrence
date: the identity and every other field of the sibling are unchanged. -/
theorem cascadingShift_frame (k : Int) (app : Application) (med : Medication) :
    ((shiftApplication k app).id = app.id ∧
      (shiftApplication k app).user_id = app.user_id ∧
      (shiftApplication k app).status = app.status ∧
      (shiftApplication k app).notes = app.notes ∧
      (shiftApplication k app).application_date =
        addDays app.application_date k) ∧
    ((shiftMedication k med).id = med.id ∧
      (shiftMedication k med).user_id = med.user_id ∧
      (shiftMedication k med).medication_name = med.medication_name ∧
      (shiftMedication k med).dosage = med.dosage ∧
      (shiftMedication k med).frequency = med.frequency ∧
      (shiftMedication k med).end_date = med.end_date ∧
      (shiftMedication k med).is_active = med.is_active ∧
      (shiftMedication k med).notes = med.notes ∧
      (shiftMedication k med).start_date = addDays med.start_date k) :=
  ⟨⟨rfl, rfl, rfl, rfl, rfl⟩, ⟨rfl, rfl, rfl, rfl, rfl, rfl, rfl, rfl, rfl⟩⟩

/-- C3 counterexample: a payment stored `pending` and due 2025-01-01, read
on 2025-01-02, is presented as `overdue` by the admin listing's derivation
but as `pending` by the patient-facing listing, which shows the stored
status unchanged — the derivation is not applied across every listing. -/
theorem overdue_not_applied_in_patient_listing :
    finalStatus dJan02 samplePayment = "overdue" ∧
    (patientPayments [samplePayment]).map Payment.status = ["pending"] ∧
    (patientPayments [samplePayment]).map Payment.status ≠
      [finalStatus dJan02 samplePayment] :=
  ⟨by decide, by decide, by decide⟩

/-- C3 (amended): the overdue derivation — `pending` with a due date
strictly before the injected "today" is presented `overdue`, `pending` due
today or later stays `pending`, and a paid payment stays `paid` regardless
of due date — is applied by the admin listing (both in the returned view and
in the rows it writes back), while the patient-facing listing presents the
stored status unchanged. -/
theorem overdue_derivation_admin_listing (today : Date) (rows : List Payment)
    (profiles : List Profile) (p : Payment) :
    (p.status = "pending" → dayNumber p.due_date < dayNumber today →
      finalStatus today p = "overdue") ∧
    (p.status = "pending" → dayNumber today ≤ dayNumber p.due_date →
      finalStatus today p = "pending") ∧
    (p.status = "paid" → finalStatus today p = "paid") ∧
    ((combinedData today rows profiles).map Payment.status =
      rows.map (finalStatus today)) ∧
    patientPayments rows = rows := by
  refine ⟨?_, ?_, ?_, ?_, rfl⟩
  · intro h1 h2
    rw [finalStatus, if_pos h1, if_pos (isAfter_iff_dayNumber.mpr h2)]
  · intro h1 h2
    rw [finalStatus, if_pos h1,
      if_neg (fun hc => by have := isAfter_iff_dayNumber.mp hc; omega)]
    exact h1
  · intro h1
    rw [finalStatus, if_neg (by simp [h1])]
    exact h1
  · unfold combinedData
    rw [List.map_map]
    rfl

/-- C10: the admin listing's passive recomputation is one-way — the rows
written back to storage as `overdue` are exactly the stored-`pending`
past-due rows, the returned view derives the same status for every row, a
non-`pending` stored status is never remapped, and in particular a payment
already stored `overdue` is presented and kept `overdue` (and generates no
write) even when its due date lies in the future. -/
theorem overdue_recomputation_one_way (today : Date) (rows : List Payment)
    (profiles : List Profile) (p : Payment) :
    (p ∈ paymentsToUpdate today rows ↔
      (p ∈ rows ∧ p.status = "pending" ∧
        dayNumber p.due_date < dayNumber today)) ∧
    ((combinedData today rows profiles).map Payment.status =
      rows.map (finalStatus today)) ∧
    (p.status ≠ "pending" → finalStatus today p = p.status) ∧
    (p.status = "overdue" → dayNumber today ≤ dayNumber p.due_date →
      (finalStatus today p = "overdue" ∧ p ∉ paymentsToUpdate today rows)) := by
  have hmem : p ∈ paymentsToUpdate today rows ↔
      (p ∈ rows ∧ p.status = "pending" ∧
        dayNumber p.due_date < dayNumber today) := by
    unfold paymentsToUpdate
    rw [List.mem_filter]
    by_cases h1 : p.status = "pending"
    · rw [if_pos (by simp [h1]), isAfter_iff_dayNumber]
      tauto
    · rw [if_neg (by simp [h1])]
      simp [h1]
  refine ⟨hmem, ?_, ?_, ?_⟩
  · unfold combinedData
    rw [List.map_map]
    rfl
  · intro h1
    rw [finalStatus, if_neg h1]
  · intro h1 h2
    refine ⟨by rw [finalStatus, if_neg (by simp [h1])]; exact h1, ?_⟩
    rw [hmem]
    simp [h1]
